import Mathlib

/-!
# Verification of the Erdős-number pipeline

Shallow embedding of the coauthorship-graph pipeline from
`erdos1_plainpython.py` (with the dataframe variants `erdos4_dataframe.py`
and `erdos5_pandera.py` sharing the same matrix-building and query logic):

* `attach_authors` joins authorship links to articles and authors;
* `build_coauthorship_matrix` accumulates a sparse COO/CSR adjacency matrix
  with `dtype=np.int8`, whose entry (i, j) is the number of coauthorship
  pairs recorded for authors i and j (summed with 8-bit wraparound);
* `erdos` runs `scipy.sparse.csgraph.dijkstra` (directed, weighted by the
  stored int8 entries) and either returns the integer distance, raises the
  distinguished no-path `ValueError`, or fails with an index error when an
  id is outside the inferred matrix shape.

The Dijkstra call is modelled as the minimum cost over all walks with at
most `n - 1` edges (`n` = inferred matrix size), which agrees with the
scipy result exactly when all stored weights are non-negative — scipy's
documented precondition for `dijkstra`.
-/

namespace ErdosPipeline

/-- An author record: a dense integer `id` used as the matrix index, and the
globally unique `orcid` string.  Name fields of the source records are not
used by the core and are omitted. -/
structure Author where
  id : Nat
  orcid : String
deriving DecidableEq, Repr

/-- An article record.  Only the `doi` key is read by the core; the other
descriptive attributes (title, publication date) are never consulted. -/
structure Article where
  doi : String
deriving DecidableEq, Repr

/-- An authorship link: the many-to-many relation between authors (by orcid)
and articles (by doi). -/
structure Authorship where
  author_orcid : String
  article_doi : String
deriving DecidableEq, Repr

/-- An article with its author list attached, the output shape of
`attach_authors` (the source copies every article attribute and adds an
`authors` list; only `doi` and `authors` are modelled). -/
structure FatArticle where
  doi : String
  authors : List Author
deriving DecidableEq, Repr

/-- The python dict comprehension `{author["orcid"]: author for author in
authors}`: on duplicate orcids the later record wins. -/
def lookupOrcid (authors : List Author) (orcid : String) : Option Author :=
  authors.foldl (fun acc a => if a.orcid = orcid then some a else acc) none

/-- The `defaultdict(list)` grouping of authorship links by `article_doi`;
append order preserves the input order of the links. -/
def authorshipsFor (authorships : List Authorship) (doi : String) : List Authorship :=
  authorships.filter fun s => s.article_doi = doi

/-- Embedding of `attach_authors` from `erdos1_plainpython.py` (lines 15-39):
for each article, look up every authorship link grouped under the article's
doi; a link whose `author_orcid` is absent from the author index raises a
`KeyError` carrying that orcid (modelled as `Except.error`). -/
def attach_authors (articles : List Article) (authors : List Author)
    (authorships : List Authorship) : Except String (List FatArticle) :=
  articles.mapM fun art => do
    let as ← (authorshipsFor authorships art.doi).mapM fun s =>
      match lookupOrcid authors s.author_orcid with
      | some a => Except.ok a
      | none => Except.error s.author_orcid
    Except.ok { doi := art.doi, authors := as }

/-- The inner double loop of `build_coauthorship_matrix` (lines 51-63): for
one article, every ordered pair of attached authors with distinct orcids
contributes the COO triplet `(author.id, coauthor.id, 1)`. -/
def articlePairs (authors : List Author) : List (Nat × Nat) :=
  authors.flatMap fun a =>
    (authors.filter fun c => a.orcid ≠ c.orcid).map fun c => (a.id, c.id)

/-- All COO triplets emitted by `build_coauthorship_matrix` over the article
list, in loop order. -/
def coauthorPairs (arts : List FatArticle) : List (Nat × Nat) :=
  arts.flatMap fun art => articlePairs art.authors

/-- Number of COO triplets equal to `(i, j)`: the value that
`coo_matrix(...).tocsr()` sums into entry (i, j) (each triplet carries the
data value 1). -/
def tripletCount (pairs : List (Nat × Nat)) (i j : Nat) : Nat :=
  pairs.countP fun p => p.1 = i ∧ p.2 = j

/-- Reduction of a count into numpy's signed 8-bit integer range: the sum is
accumulated in `dtype=np.int8`, which wraps modulo 2^8 into [-128, 127]. -/
def int8wrap (n : Nat) : Int :=
  (((n + 128) % 256 : Nat) : Int) - 128

/-- The stored matrix entry (i, j) of `build_coauthorship_matrix`: the number
of COO triplets for the ordered pair, summed in int8 arithmetic. -/
def entry (arts : List FatArticle) (i j : Nat) : Int :=
  int8wrap (tripletCount (coauthorPairs arts) i j)

/-- The matrix shape inferred by `sp.coo_matrix` when no `shape` argument is
given: one more than the largest index appearing in the triplets.  (The
constructor raises when the triplet list is empty, so every claim about a
built graph assumes `pairs ≠ []`.) -/
def matrixSize (pairs : List (Nat × Nat)) : Nat :=
  (pairs.map fun p => max p.1 p.2).foldr max 0 + 1

/-- Minimum of a list of integers, `none` on the empty list. -/
def listMin : List Int → Option Int
  | [] => none
  | x :: xs =>
    match listMin xs with
    | none => some x
    | some m => some (min x m)

/-- Costs of all directed walks from `a` to `b` that use at most `k` edges
of the triplet list, each edge `(x, y)` costing `w x y`.  The length-0 walk
(cost 0) is present exactly when `a = b`; a longer walk is a shorter walk to
some `e.1` extended by a final stored edge `e = (e.1, b)`. -/
def walkCosts (pairs : List (Nat × Nat)) (w : Nat → Nat → Int) (a : Nat) :
    Nat → Nat → List Int
  | 0, b => if a = b then [0] else []
  | k + 1, b =>
    walkCosts pairs w a k b ++
      pairs.flatMap fun e =>
        if e.2 = b then (walkCosts pairs w a k e.1).map (fun c => c + w e.1 e.2) else []

/-- Observable outcomes of the `erdos` query in `erdos1_plainpython.py`
(lines 72-77): an integer distance, the distinguished
`ValueError("No path between the authors exists.")`, or an index error
(scipy rejects an out-of-range source index; numpy raises `IndexError` for
an out-of-range target index) — an exception distinct from the no-path
signal. -/
inductive ErdosOutcome where
  | dist (d : Int) : ErdosOutcome
  | noPath : ErdosOutcome
  | indexError : ErdosOutcome
deriving DecidableEq, Repr

/-- Embedding of `erdos` composed with `build_coauthorship_matrix`: build the
int8 CSR matrix from the fat articles, then run the directed weighted
Dijkstra from `a` and read off index `b`.  The scipy shortest-path value is
modelled as the minimum cost over walks with at most `n - 1` edges, `n`
being the inferred matrix size; this is exact whenever the stored weights
are non-negative.  Ids outside the inferred shape raise an index error
before any no-path check. -/
def erdos (arts : List FatArticle) (a b : Nat) : ErdosOutcome :=
  let pairs := coauthorPairs arts
  let n := matrixSize pairs
  if a < n ∧ b < n then
    match listMin (walkCosts pairs (entry arts) a (n - 1) b) with
    | some d => ErdosOutcome.dist d
    | none => ErdosOutcome.noPath
  else ErdosOutcome.indexError

/-- A walk from `x` through the successive nodes of `l` uses only stored
edges: each consecutive step `(x, y)` must occur among the COO triplets. -/
def chainOk (pairs : List (Nat × Nat)) : Nat → List Nat → Bool
  | _, [] => true
  | x, y :: l => decide ((x, y) ∈ pairs) && chainOk pairs y l

/-- Total weight of the walk from `x` through the successive nodes of `l`. -/
def walkCost (w : Nat → Nat → Int) : Nat → List Nat → Int
  | _, [] => 0
  | x, y :: l => w x y + walkCost w y l

/-- The node list `l` describes a directed walk from `a` to `b` over the
stored edges. -/
def IsWalkFromTo (pairs : List (Nat × Nat)) (a b : Nat) (l : List Nat) : Prop :=
  chainOk pairs a l = true ∧ l.getLastD a = b

/-- `d` is the exact minimum walk cost from `a` to `b`: some walk attains it
and no walk of any length is cheaper. -/
def IsMinWalkCost (pairs : List (Nat × Nat)) (w : Nat → Nat → Int)
    (a b : Nat) (d : Int) : Prop :=
  (∃ l, IsWalkFromTo pairs a b l ∧ walkCost w a l = d) ∧
    ∀ l, IsWalkFromTo pairs a b l → d ≤ walkCost w a l

/-- Unbounded directed reachability over the stored edges. -/
inductive Reaches (pairs : List (Nat × Nat)) : Nat → Nat → Prop
  | refl (a : Nat) : Reaches pairs a a
  | head {a b c : Nat} : (a, b) ∈ pairs → Reaches pairs b c → Reaches pairs a c

/-- Boolean success test for `Except`. -/
def okB {ε α : Type} : Except ε α → Bool
  | Except.ok _ => true
  | Except.error _ => false

/-- Indicator of one ordered author pair contributing a triplet for the
matrix cell (i, j): the double loop emits `(a.id, c.id)` exactly when the
orcids differ. -/
def cnt (i j : Nat) (a c : Author) : Nat :=
  if a.id = i ∧ c.id = j ∧ a.orcid ≠ c.orcid then 1 else 0

/-- The number of triplets one article's author list contributes to cell
(i, j), written as an explicit double sum over ordered author pairs. -/
def doubleSum (L : List Author) (i j : Nat) : Nat :=
  (L.map fun a => (L.map fun c => cnt i j a c).sum).sum

/-- Author A with id 0. -/
def authA : Author := ⟨0, "orcid-A"⟩

/-- Author B with id 1. -/
def authB : Author := ⟨1, "orcid-B"⟩

/-- Author C with id 2. -/
def authC : Author := ⟨2, "orcid-C"⟩

/-- The spec's end-to-end example: article X by A and B, article Y by B and
C; author D (id 3) appears in no article and therefore in no triplet. -/
def chainInput : List FatArticle := [⟨"doi-X", [authA, authB]⟩, ⟨"doi-Y", [authB, authC]⟩]

/-- One article carrying a duplicate authorship link for A (the same author
attached twice) together with B. -/
def dupLinkInput : List FatArticle := [⟨"doi-X", [authA, authA, authB]⟩]

/-- Two distinct articles each coauthored by the same two authors A and B. -/
def twoJointInput : List FatArticle := [⟨"doi-X", [authA, authB]⟩, ⟨"doi-Y", [authA, authB]⟩]

/-- 128 articles all coauthored by A and B: the ordered pair (0, 1) occurs
128 times, overflowing the signed 8-bit accumulator. -/
def overflowInput : List FatArticle := List.replicate 128 ⟨"doi-X", [authA, authB]⟩

/-- A single article coauthored by A and B. -/
def pairInput : List FatArticle := [⟨"doi-X", [authA, authB]⟩]

/-- Two distinct author records that share the id 0 but carry different
orcids, listed on one article. -/
def idClashInput : List FatArticle := [⟨"doi-X", [⟨0, "orcid-A"⟩, ⟨0, "orcid-B"⟩]⟩]

/-- An authorship link whose orcid matches no author and whose doi matches
no listed article. -/
def ghostLink : Authorship := ⟨"orcid-ghost", "doi-unlisted"⟩

/-- The single listed article of the `ghostLink` scenario. -/
def c2Articles : List Article := [⟨"doi-listed"⟩]

/-- The author collection of the `ghostLink` scenario. -/
def c2Authors : List Author := [authA]

end ErdosPipeline

namespace ErdosPipeline

set_option maxRecDepth 8000

/-- Claim C1: the claim says `erdos` charges every edge one hop, so a pair
with a duplicated authorship link still has distance 1.  The code instead
runs Dijkstra over the accumulated int8 weights: with author A attached
twice to one article alongside B, the stored weight of (0, 1) is 2 and the
query returns distance 2, not 1 — contradicting the `erdos` docstring's
promise of an Erdős (hop) number. -/
theorem erdos_weighted_not_hop_on_duplicate_link :
    erdos dupLinkInput 0 1 = ErdosOutcome.dist 2 ∧
      erdos dupLinkInput 0 1 ≠ ErdosOutcome.dist 1 := by
  decide

/-- Claim C3 (counterexample): in the spec's end-to-end example the matrix
is inferred as 3×3 (author D of id 3 appears in no triplet), so the query
(0, 3) fails with an index error instead of signalling the distinguished
no-path outcome the claim expects. -/
theorem chain_example_id3_is_index_error :
    erdos chainInput 0 3 = ErdosOutcome.indexError ∧
      erdos chainInput 0 3 ≠ ErdosOutcome.noPath := by
  decide

/-- Claim C3 (amended): on the end-to-end example the pipeline yields
distance(0,1) = 1, distance(0,2) = 2, distance(1,1) = 0, and the query
(0, 3) raises an index error (id 3 lies outside the inferred 3×3 matrix)
rather than the distinguished no-path error. -/
theorem chain_example_distances :
    erdos chainInput 0 1 = ErdosOutcome.dist 1 ∧
      erdos chainInput 0 2 = ErdosOutcome.dist 2 ∧
      erdos chainInput 1 1 = ErdosOutcome.dist 0 ∧
      erdos chainInput 0 3 = ErdosOutcome.indexError := by
  decide

/-- Claim C4: the claim says any two coauthors of at least one shared
article are at distance 1 in both directions.  With two jointly authored
articles the stored weight of each direction is 2, and the weighted Dijkstra
returns 2 both ways, not 1 — again contradicting the hop-count reading of
the `erdos` docstring. -/
theorem erdos_weighted_not_hop_on_two_joint_articles :
    erdos twoJointInput 0 1 = ErdosOutcome.dist 2 ∧
      erdos twoJointInput 1 0 = ErdosOutcome.dist 2 ∧
      erdos twoJointInput 0 1 ≠ ErdosOutcome.dist 1 := by
  decide

/-- Claim C5 (counterexample): for a target id outside the inferred matrix
shape there is no path from the source, yet the code does not signal its
distinguished no-path error — the out-of-bounds read fails with an index
error first. -/
theorem out_of_bounds_id_is_not_no_path :
    erdos pairInput 0 5 = ErdosOutcome.indexError ∧
      erdos pairInput 0 5 ≠ ErdosOutcome.noPath := by
  decide

/-- Claim C6: the builder's docstring promises that entry (i, j) is the
number of papers coauthored by i and j, but the int8 accumulator wraps: 128
joint articles for the pair (0, 1) store the weight −128, not 128. -/
theorem entry_overflows_joint_article_count :
    tripletCount (coauthorPairs overflowInput) 0 1 = 128 ∧
      entry overflowInput 0 1 = -128 := by
  decide

/-- Claim C9 (counterexample): the claim's hypothesis — every author record
carries a distinct orcid — holds for `idClashInput` (two records with
orcids orcid-A and orcid-B), yet both records share id 0, the orcid
inequality guard does not fire, and the diagonal entry (0, 0) is 2. -/
theorem distinct_orcids_still_self_edge :
    (∀ art ∈ idClashInput, ∀ x ∈ art.authors,
        ∀ art2 ∈ idClashInput, ∀ y ∈ art2.authors, x = y ∨ x.orcid ≠ y.orcid) ∧
      entry idClashInput 0 0 ≠ 0 := by
  decide

/-- Claim C10: weights are accumulated in numpy's signed 8-bit dtype, so a
pair occurring 128 (> 127) times stores the negative weight −128, violating
the non-negativity Dijkstra assumes. -/
theorem int8_accumulation_goes_negative :
    tripletCount (coauthorPairs overflowInput) 1 0 = 128 ∧
      entry overflowInput 1 0 = -128 ∧
      entry overflowInput 1 0 < 0 := by
  decide

theorem listMin_eq_none_iff (l : List Int) : listMin l = none ↔ l = [] := by
  cases l with
  | nil => simp [listMin]
  | cons x xs =>
    simp only [listMin]
    cases listMin xs <;> simp

theorem listMin_mem {l : List Int} {m : Int} (h : listMin l = some m) : m ∈ l := by
  induction l generalizing m with
  | nil => simp [listMin] at h
  | cons x xs ih =>
    simp only [listMin] at h
    cases hxs : listMin xs with
    | none => rw [hxs] at h; simp at h; simp [h]
    | some m2 =>
      rw [hxs] at h
      simp only [Option.some.injEq] at h
      rcases le_total x m2 with hle | hle
      · rw [min_eq_left hle] at h
        subst h
        exact List.mem_cons_self x xs
      · rw [min_eq_right hle] at h
        subst h
        exact List.mem_cons_of_mem x (ih hxs)

theorem listMin_le {l : List Int} {m : Int} (h : listMin l = some m) :
    ∀ x ∈ l, m ≤ x := by
  induction l generalizing m with
  | nil => simp
  | cons x xs ih =>
    simp only [listMin] at h
    cases hxs : listMin xs with
    | none =>
      rw [hxs] at h
      simp only [Option.some.injEq] at h
      rw [listMin_eq_none_iff] at hxs
      subst hxs
      simp [← h]
    | some m2 =>
      rw [hxs] at h
      simp only [Option.some.injEq] at h
      intro y hy
      rcases List.mem_cons.mp hy with rfl | hmem
      · omega
      · have := ih hxs y hmem; omega

theorem listMin_isSome_of_mem {l : List Int} {x : Int} (h : x ∈ l) :
    ∃ m, listMin l = some m := by
  cases hl : listMin l with
  | none => rw [listMin_eq_none_iff] at hl; subst hl; simp at h
  | some m => exact ⟨m, rfl⟩

theorem getLastD_append (l1 l2 : List Nat) (x : Nat) :
    (l1 ++ l2).getLastD x = l2.getLastD (l1.getLastD x) := by
  induction l1 generalizing x with
  | nil => simp only [List.nil_append, List.getLastD_nil]
  | cons y l1 ih => simp only [List.cons_append, List.getLastD_cons, ih]

theorem chainOk_append (pairs : List (Nat × Nat)) (l1 l2 : List Nat) (x : Nat) :
    chainOk pairs x (l1 ++ l2) =
      (chainOk pairs x l1 && chainOk pairs (l1.getLastD x) l2) := by
  induction l1 generalizing x with
  | nil => simp only [List.nil_append, List.getLastD_nil, chainOk, Bool.true_and]
  | cons y l1 ih =>
    simp only [List.cons_append, chainOk, List.append_eq, List.getLastD_cons, ih,
      Bool.and_assoc]

theorem walkCost_append (w : Nat → Nat → Int) (l1 l2 : List Nat) (x : Nat) :
    walkCost w x (l1 ++ l2) = walkCost w x l1 + walkCost w (l1.getLastD x) l2 := by
  induction l1 generalizing x with
  | nil => simp only [List.nil_append, List.getLastD_nil, walkCost, zero_add]
  | cons y l1 ih =>
    simp only [List.cons_append, walkCost, List.append_eq, List.getLastD_cons, ih]
    ring

/-- Membership in `walkCosts` characterizes exactly the costs of walks with
at most `k` edges. -/
theorem mem_walkCosts {pairs : List (Nat × Nat)} {w : Nat → Nat → Int} {a : Nat} :
    ∀ {k b : Nat} {c : Int},
      c ∈ walkCosts pairs w a k b ↔
        ∃ l, l.length ≤ k ∧ IsWalkFromTo pairs a b l ∧ walkCost w a l = c := by
  intro k
  induction k with
  | zero =>
    intro b c
    constructor
    · intro h
      by_cases hab : a = b
      · subst hab
        simp [walkCosts] at h
        subst h
        exact ⟨[], by simp, ⟨rfl, rfl⟩, rfl⟩
      · simp [walkCosts, hab] at h
    · rintro ⟨l, hlen, ⟨hch, hlast⟩, hcost⟩
      rw [List.length_eq_zero.mp (Nat.le_zero.mp hlen)] at hlast hcost
      simp at hlast
      simp [walkCosts, hlast, ← hcost, walkCost]
  | succ k ih =>
    intro b c
    constructor
    · intro h
      rcases List.mem_append.mp h with h | h
      · obtain ⟨l, hlen, hw, hc⟩ := ih.mp h
        exact ⟨l, Nat.le_succ_of_le hlen, hw, hc⟩
      · rw [List.mem_flatMap] at h
        obtain ⟨e, he, hmem⟩ := h
        by_cases heb : e.2 = b
        · rw [if_pos heb] at hmem
          rw [List.mem_map] at hmem
          obtain ⟨c0, hc0, rfl⟩ := hmem
          obtain ⟨l0, hlen0, ⟨hch0, hlast0⟩, hcost0⟩ := ih.mp hc0
          refine ⟨l0 ++ [b], by simp; omega, ⟨?_, ?_⟩, ?_⟩
          · rw [chainOk_append, hlast0]
            have : (e.1, b) ∈ pairs := by rw [← heb]; exact he
            simp [chainOk, this, hch0]
          · rw [getLastD_append]; simp
          · rw [walkCost_append, hlast0, hcost0]
            simp [walkCost, heb]
        · rw [if_neg heb] at hmem
          simp at hmem
    · rintro ⟨l, hlen, ⟨hch, hlast⟩, hcost⟩
      simp only [walkCosts]
      rw [List.mem_append]
      by_cases hk : l.length ≤ k
      · exact Or.inl (ih.mpr ⟨l, hk, ⟨hch, hlast⟩, hcost⟩)
      · right
        have hne : l ≠ [] := by
          intro hnil; subst hnil; simp at hk
        obtain ⟨l0, z, rfl⟩ : ∃ l0 z, l = l0 ++ [z] :=
          ⟨l.dropLast, l.getLast hne, (List.dropLast_append_getLast hne).symm⟩
        have hlast2 : z = b := by
          rw [getLastD_append] at hlast
          simpa using hlast
        subst hlast2
        rw [chainOk_append, Bool.and_eq_true] at hch
        have hch0 : chainOk pairs a l0 = true := hch.1
        have hedge : ((l0.getLastD a, z) ∈ pairs) := by
          have := hch.2
          simp only [chainOk, Bool.and_true, decide_eq_true_eq] at this
          exact this
        rw [List.mem_flatMap]
        refine ⟨(l0.getLastD a, z), hedge, ?_⟩
        rw [if_pos rfl]
        rw [List.mem_map]
        refine ⟨walkCost w a l0, ih.mpr ⟨l0, ?_, ⟨hch0, rfl⟩, rfl⟩, ?_⟩
        · simp at hlen ⊢; omega
        · rw [← hcost, walkCost_append]
          simp [walkCost]

theorem le_foldr_max_of_mem {l : List Nat} {x : Nat} (h : x ∈ l) :
    x ≤ l.foldr max 0 := by
  induction l with
  | nil => simp at h
  | cons y l ih =>
    rcases List.mem_cons.mp h with rfl | hmem
    · exact le_max_left _ _
    · exact le_trans (ih hmem) (le_max_right _ _)

/-- Every index mentioned by a triplet lies inside the inferred matrix. -/
theorem mem_pairs_lt_matrixSize {pairs : List (Nat × Nat)} {p : Nat × Nat}
    (h : p ∈ pairs) : p.1 < matrixSize pairs ∧ p.2 < matrixSize pairs := by
  have hmax : max p.1 p.2 ≤ (pairs.map fun q => max q.1 q.2).foldr max 0 :=
    le_foldr_max_of_mem (List.mem_map.mpr ⟨p, h, rfl⟩)
  unfold matrixSize
  omega

/-- Every node visited along a walk over stored edges lies inside the
inferred matrix. -/
theorem chainOk_nodes_lt {pairs : List (Nat × Nat)} :
    ∀ {x : Nat} {l : List Nat}, chainOk pairs x l = true →
      ∀ y ∈ l, y < matrixSize pairs := by
  intro x l
  induction l generalizing x with
  | nil => intro _ y hy; simp at hy
  | cons z l ih =>
    intro h y hy
    simp only [chainOk, Bool.and_eq_true, decide_eq_true_eq] at h
    rcases List.mem_cons.mp hy with rfl | hmem
    · exact (mem_pairs_lt_matrixSize h.1).2
    · exact ih h.2 y hmem

/-- With non-negative stored weights every walk has non-negative cost. -/
theorem walkCost_nonneg {pairs : List (Nat × Nat)} {w : Nat → Nat → Int}
    (hw : ∀ p ∈ pairs, 0 ≤ w p.1 p.2) :
    ∀ {x : Nat} {l : List Nat}, chainOk pairs x l = true → 0 ≤ walkCost w x l := by
  intro x l
  induction l generalizing x with
  | nil => intro _; simp [walkCost]
  | cons z l ih =>
    intro h
    simp only [chainOk, Bool.and_eq_true, decide_eq_true_eq] at h
    have h1 : 0 ≤ w x z := hw (x, z) h.1
    have h2 : 0 ≤ walkCost w z l := ih h.2
    simp only [walkCost]
    omega

theorem not_nodup_of_lt_length {l : List Nat} {n : Nat}
    (hb : ∀ x ∈ l, x < n) (hn : n < l.length) : ¬ l.Nodup := by
  intro hnd
  have hcard : l.toFinset.card = l.length := List.toFinset_card_of_nodup hnd
  have hsub : l.toFinset ⊆ Finset.range n := by
    intro x hx
    exact Finset.mem_range.mpr (hb x (List.mem_toFinset.mp hx))
  have := Finset.card_le_card hsub
  rw [hcard, Finset.card_range] at this
  omega

theorem exists_dup_split {l : List Nat} (h : ¬ l.Nodup) :
    ∃ x u v t, l = u ++ x :: v ++ x :: t := by
  induction l with
  | nil => exact absurd List.nodup_nil h
  | cons y l ih =>
    by_cases hy : y ∈ l
    · obtain ⟨v, t, rfl⟩ := List.append_of_mem hy
      exact ⟨y, [], v, t, rfl⟩
    · have hl : ¬ l.Nodup := fun hnd => h (List.nodup_cons.mpr ⟨hy, hnd⟩)
      obtain ⟨x, u, v, t, rfl⟩ := ih hl
      exact ⟨x, y :: u, v, t, rfl⟩

/-- Walk shortening: with non-negative stored weights, every walk from `a`
inside the matrix bounds can be replaced by a walk with at most `n - 1`
edges to the same target and no greater cost.  Repeated nodes give a cycle
that can be cut without increasing the cost. -/
theorem exists_short_walk {pairs : List (Nat × Nat)} {w : Nat → Nat → Int}
    (hw : ∀ p ∈ pairs, 0 ≤ w p.1 p.2) {a b : Nat}
    (ha : a < matrixSize pairs) :
    ∀ l, IsWalkFromTo pairs a b l →
      ∃ l2, l2.length ≤ matrixSize pairs - 1 ∧ IsWalkFromTo pairs a b l2 ∧
        walkCost w a l2 ≤ walkCost w a l := by
  set n := matrixSize pairs with hn
  have main : ∀ N l, l.length ≤ N → IsWalkFromTo pairs a b l →
      ∃ l2, l2.length ≤ n - 1 ∧ IsWalkFromTo pairs a b l2 ∧
        walkCost w a l2 ≤ walkCost w a l := by
    intro N
    induction N with
    | zero =>
      intro l hlen hwalk
      exact ⟨l, by omega, hwalk, le_refl _⟩
    | succ N ihN =>
      intro l hlen hwalk
      by_cases hshort : l.length ≤ n - 1
      · exact ⟨l, hshort, hwalk, le_refl _⟩
      · obtain ⟨hch, hlast⟩ := hwalk
        have hnodes : ∀ y ∈ a :: l, y < n := by
          intro y hy
          rcases List.mem_cons.mp hy with rfl | hmem
          · exact ha
          · exact chainOk_nodes_lt hch y hmem
        have hlong : n < (a :: l).length := by
          simp only [List.length_cons]
          omega
        obtain ⟨x, u, v, t, hsplit⟩ :=
          exists_dup_split (not_nodup_of_lt_length hnodes hlong)
        cases u with
        | nil =>
          rw [List.nil_append] at hsplit
          injection hsplit with h1 h2
          subst h1
          subst h2
          simp only [List.append_eq] at hch hlast hlen ⊢
          have hlastseg : (v ++ [a]).getLastD a = a := by
            rw [getLastD_append]; simp
          rw [show v ++ a :: t = (v ++ [a]) ++ t by simp] at hch hlast ⊢
          rw [chainOk_append, Bool.and_eq_true, hlastseg] at hch
          obtain ⟨hchseg, hcht⟩ := hch
          rw [getLastD_append, hlastseg] at hlast
          have hcost0 : 0 ≤ walkCost w a (v ++ [a]) := walkCost_nonneg hw hchseg
          have hwalk2 : IsWalkFromTo pairs a b t := ⟨hcht, hlast⟩
          have hlen2 : t.length ≤ N := by
            simp only [List.length_append, List.length_cons] at hlen
            omega
          obtain ⟨l2, h1, h2, h3⟩ := ihN t hlen2 hwalk2
          refine ⟨l2, h1, h2, ?_⟩
          rw [walkCost_append, hlastseg]
          omega
        | cons y u =>
          rw [List.cons_append] at hsplit
          injection hsplit with h1 h2
          subst h1
          subst h2
          simp only [List.append_eq] at hch hlast hlen ⊢
          have hlastu : (u ++ [x]).getLastD a = x := by
            rw [getLastD_append]; simp
          have hlastv : (v ++ [x]).getLastD x = x := by
            rw [getLastD_append]; simp
          rw [show u ++ x :: v ++ x :: t = (u ++ [x]) ++ ((v ++ [x]) ++ t) by simp]
            at hch hlast ⊢
          rw [chainOk_append, Bool.and_eq_true, hlastu] at hch
          obtain ⟨hchu, hch2⟩ := hch
          rw [chainOk_append, Bool.and_eq_true, hlastv] at hch2
          obtain ⟨hchv, hcht⟩ := hch2
          rw [getLastD_append, hlastu, getLastD_append, hlastv] at hlast
          have hchnew : chainOk pairs a ((u ++ [x]) ++ t) = true := by
            rw [chainOk_append, Bool.and_eq_true, hlastu]
            exact ⟨hchu, hcht⟩
          have hlastnew : ((u ++ [x]) ++ t).getLastD a = b := by
            rw [getLastD_append, hlastu]
            exact hlast
          have hwalk2 : IsWalkFromTo pairs a b ((u ++ [x]) ++ t) := ⟨hchnew, hlastnew⟩
          have hlen2 : ((u ++ [x]) ++ t).length ≤ N := by
            simp only [List.length_append, List.length_cons, List.length_nil]
              at hlen ⊢
            omega
          obtain ⟨l2, h1, h2, h3⟩ := ihN _ hlen2 hwalk2
          refine ⟨l2, h1, h2, ?_⟩
          have hmidcost : 0 ≤ walkCost w x (v ++ [x]) := walkCost_nonneg hw hchv
          have hinner : walkCost w x ((v ++ [x]) ++ t) =
              walkCost w x (v ++ [x]) + walkCost w x t := by
            rw [walkCost_append, hlastv]
          have hsplitcost : walkCost w a ((u ++ [x]) ++ ((v ++ [x]) ++ t)) =
              walkCost w a (u ++ [x]) + (walkCost w x (v ++ [x]) + walkCost w x t) := by
            rw [walkCost_append, hlastu, hinner]
          have hnewcost : walkCost w a ((u ++ [x]) ++ t) =
              walkCost w a (u ++ [x]) + walkCost w x t := by
            rw [walkCost_append, hlastu]
          rw [hsplitcost]
          rw [hnewcost] at h3
          omega
  intro l hwalk
  exact main l.length l (le_refl _) hwalk

/-- Reachability over stored edges is the existence of a walk. -/
theorem reaches_iff_exists_walk {pairs : List (Nat × Nat)} {a b : Nat} :
    Reaches pairs a b ↔ ∃ l, IsWalkFromTo pairs a b l := by
  constructor
  · intro h
    induction h with
    | refl a => exact ⟨[], rfl, rfl⟩
    | @head a2 b2 c2 hab _ ih =>
      obtain ⟨l, hch, hlast⟩ := ih
      refine ⟨b2 :: l, ?_, ?_⟩
      · simp only [chainOk, Bool.and_eq_true, decide_eq_true_eq]
        exact ⟨hab, hch⟩
      · rw [List.getLastD_cons]
        exact hlast
  · rintro ⟨l, hch, hlast⟩
    induction l generalizing a with
    | nil =>
      simp only [List.getLastD_nil] at hlast
      subst hlast
      exact Reaches.refl a
    | cons y l ih =>
      simp only [chainOk, Bool.and_eq_true, decide_eq_true_eq] at hch
      rw [List.getLastD_cons] at hlast
      exact Reaches.head hch.1 (ih hch.2 hlast)

theorem erdos_eq_of_bounds {arts : List FatArticle} {a b : Nat}
    (ha : a < matrixSize (coauthorPairs arts))
    (hb : b < matrixSize (coauthorPairs arts)) :
    erdos arts a b =
      match listMin (walkCosts (coauthorPairs arts) (entry arts) a
          (matrixSize (coauthorPairs arts) - 1) b) with
      | some d => ErdosOutcome.dist d
      | none => ErdosOutcome.noPath := by
  simp only [erdos]
  rw [if_pos ⟨ha, hb⟩]

/-- Claim C5 (amended): for ids inside the inferred matrix shape of a built
graph with non-negative stored weights, the query signals its distinguished
no-path error exactly when the target is unreachable from the source over
the stored directed edges, and any returned number is the exact minimum
walk cost (a non-negative integer).  Ids outside the shape do not reach the
no-path signal — they fail earlier with an index error
(`chain_example_id3_is_index_error`, `out_of_bounds_id_is_not_no_path`). -/
theorem erdos_characterization (arts : List FatArticle) (a b : Nat)
    (hne : coauthorPairs arts ≠ [])
    (ha : a < matrixSize (coauthorPairs arts))
    (hb : b < matrixSize (coauthorPairs arts))
    (hw : ∀ p ∈ coauthorPairs arts, 0 ≤ entry arts p.1 p.2) :
    (erdos arts a b = ErdosOutcome.noPath ↔ ¬ Reaches (coauthorPairs arts) a b) ∧
      (∀ d : Int, erdos arts a b = ErdosOutcome.dist d →
        0 ≤ d ∧ IsMinWalkCost (coauthorPairs arts) (entry arts) a b d) := by
  have _hne := hne
  constructor
  · rw [erdos_eq_of_bounds ha hb]
    cases hmin : listMin (walkCosts (coauthorPairs arts) (entry arts) a
        (matrixSize (coauthorPairs arts) - 1) b) with
    | none =>
      simp only [iff_true]
      constructor
      · intro _ hr
        obtain ⟨l, hwalk⟩ := reaches_iff_exists_walk.mp hr
        obtain ⟨l2, hlen2, hwalk2, _⟩ := exists_short_walk hw ha l hwalk
        have hmem : walkCost (entry arts) a l2 ∈
            walkCosts (coauthorPairs arts) (entry arts) a
              (matrixSize (coauthorPairs arts) - 1) b :=
          mem_walkCosts.mpr ⟨l2, hlen2, hwalk2, rfl⟩
        rw [(listMin_eq_none_iff _).mp hmin] at hmem
        simp at hmem
      · intro _; trivial
    | some d =>
      constructor
      · intro h; exact absurd h (by simp)
      · intro hnr
        exfalso
        apply hnr
        obtain ⟨l, _, hwalk, _⟩ := mem_walkCosts.mp (listMin_mem hmin)
        exact reaches_iff_exists_walk.mpr ⟨l, hwalk⟩
  · intro d hd
    rw [erdos_eq_of_bounds ha hb] at hd
    cases hmin : listMin (walkCosts (coauthorPairs arts) (entry arts) a
        (matrixSize (coauthorPairs arts) - 1) b) with
    | none => rw [hmin] at hd; simp at hd
    | some d0 =>
      rw [hmin] at hd
      simp only [ErdosOutcome.dist.injEq] at hd
      subst hd
      obtain ⟨l, _, hwalk, hcost⟩ := mem_walkCosts.mp (listMin_mem hmin)
      refine ⟨?_, ⟨l, hwalk, hcost⟩, ?_⟩
      · rw [← hcost]
        exact walkCost_nonneg hw hwalk.1
      · intro l2 hwalk2
        obtain ⟨l3, hlen3, hwalk3, hle3⟩ := exists_short_walk hw ha l2 hwalk2
        have hmem3 : walkCost (entry arts) a l3 ∈
            walkCosts (coauthorPairs arts) (entry arts) a
              (matrixSize (coauthorPairs arts) - 1) b :=
          mem_walkCosts.mpr ⟨l3, hlen3, hwalk3, rfl⟩
        exact le_trans (listMin_le hmin _ hmem3) hle3

/-- Witness for `erdos_characterization` at the end-to-end example with
source 0 and target 1. -/
theorem erdos_characterization_witness :
    (erdos chainInput 0 1 = ErdosOutcome.noPath ↔
        ¬ Reaches (coauthorPairs chainInput) 0 1) ∧
      (∀ d : Int, erdos chainInput 0 1 = ErdosOutcome.dist d →
        0 ≤ d ∧ IsMinWalkCost (coauthorPairs chainInput) (entry chainInput) 0 1 d) :=
  erdos_characterization chainInput 0 1 (by decide) (by decide) (by decide) (by decide)

/-- Claim C7: on a built graph with non-negative stored weights, querying an
author against themselves returns distance 0 — Dijkstra's zero-length walk
from the source is optimal. -/
theorem erdos_self_distance_zero (arts : List FatArticle) (a : Nat)
    (hne : coauthorPairs arts ≠ [])
    (ha : a < matrixSize (coauthorPairs arts))
    (hw : ∀ p ∈ coauthorPairs arts, 0 ≤ entry arts p.1 p.2) :
    erdos arts a a = ErdosOutcome.dist 0 := by
  have _hne := hne
  rw [erdos_eq_of_bounds ha ha]
  have h0 : (0 : Int) ∈ walkCosts (coauthorPairs arts) (entry arts) a
      (matrixSize (coauthorPairs arts) - 1) a :=
    mem_walkCosts.mpr ⟨[], by simp, ⟨rfl, rfl⟩, rfl⟩
  obtain ⟨m, hm⟩ := listMin_isSome_of_mem h0
  rw [hm]
  have hle : m ≤ 0 := listMin_le hm 0 h0
  obtain ⟨l, _, hwalk, hcost⟩ := mem_walkCosts.mp (listMin_mem hm)
  have hge : 0 ≤ m := by
    rw [← hcost]
    exact walkCost_nonneg hw hwalk.1
  have : m = 0 := le_antisymm hle hge
  rw [this]

/-- Witness for `erdos_self_distance_zero` on a one-article graph. -/
theorem erdos_self_distance_zero_witness :
    erdos pairInput 0 0 = ErdosOutcome.dist 0 :=
  erdos_self_distance_zero pairInput 0 (by decide) (by decide) (by decide)

theorem countP_flatMap {α β : Type} (l : List α) (f : α → List β) (p : β → Bool) :
    (l.flatMap f).countP p = (l.map fun a => (f a).countP p).sum := by
  induction l with
  | nil => rfl
  | cons a l ih =>
    rw [List.flatMap_cons, List.countP_append, List.map_cons, List.sum_cons, ih]

theorem sum_map_zero {α : Type} (l : List α) :
    (l.map fun _ => (0 : Nat)).sum = 0 := by
  induction l with
  | nil => rfl
  | cons a l ih => rw [List.map_cons, List.sum_cons, ih]

theorem sum_map_add {α : Type} (l : List α) (f g : α → Nat) :
    (l.map fun x => f x + g x).sum = (l.map f).sum + (l.map g).sum := by
  induction l with
  | nil => rfl
  | cons a l ih =>
    simp only [List.map_cons, List.sum_cons, ih]
    omega

/-- Interchange of a double sum over two lists. -/
theorem sum_sum_comm {α : Type} (L M : List α) (F : α → α → Nat) :
    (L.map fun a => (M.map fun c => F a c).sum).sum =
      (M.map fun c => (L.map fun a => F a c).sum).sum := by
  induction L with
  | nil =>
    simp only [List.map_nil, List.sum_nil]
    exact (sum_map_zero M).symm
  | cons a L ih =>
    simp only [List.map_cons, List.sum_cons, ih, ← sum_map_add]

/-- One inner loop iteration of the builder counted against the cell
(i, j). -/
theorem inner_count (a : Author) (i j : Nat) (M : List Author) :
    ((M.filter fun c => a.orcid ≠ c.orcid).map fun c => (a.id, c.id)).countP
      (fun p => decide (p.1 = i ∧ p.2 = j)) =
      (M.map fun c => cnt i j a c).sum := by
  induction M with
  | nil => rfl
  | cons c M ih =>
    by_cases hor : a.orcid ≠ c.orcid
    · rw [List.filter_cons_of_pos (by simpa using hor), List.map_cons,
        List.countP_cons, List.map_cons, List.sum_cons, ih]
      have hpt : (if (decide ((a.id, c.id).1 = i ∧ (a.id, c.id).2 = j)) = true
          then 1 else 0) = cnt i j a c := by
        simp [cnt, hor]
      rw [hpt]
      omega
    · rw [List.filter_cons_of_neg (by simpa using hor), List.map_cons,
        List.sum_cons, ih]
      have hz : cnt i j a c = 0 := by
        simp only [cnt, ite_eq_right_iff]
        intro hcontra
        exact absurd hcontra.2.2 (by simpa using hor)
      rw [hz]
      omega

theorem articlePairs_count (L : List Author) (i j : Nat) :
    tripletCount (articlePairs L) i j = doubleSum L i j := by
  unfold tripletCount articlePairs doubleSum
  rw [countP_flatMap]
  exact congrArg (fun F => (List.map F L).sum) (funext fun a => inner_count a i j L)

theorem cnt_swap (i j : Nat) (a c : Author) : cnt i j a c = cnt j i c a := by
  unfold cnt
  refine if_congr ?_ rfl rfl
  constructor
  · rintro ⟨h1, h2, h3⟩; exact ⟨h2, h1, Ne.symm h3⟩
  · rintro ⟨h1, h2, h3⟩; exact ⟨h2, h1, Ne.symm h3⟩

theorem doubleSum_swap (L : List Author) (i j : Nat) :
    doubleSum L i j = doubleSum L j i := by
  unfold doubleSum
  rw [sum_sum_comm]
  simp only [cnt_swap i j]

theorem tripletCount_articlePairs_symm (L : List Author) (i j : Nat) :
    tripletCount (articlePairs L) i j = tripletCount (articlePairs L) j i := by
  rw [articlePairs_count, articlePairs_count, doubleSum_swap]

theorem tripletCount_symm (arts : List FatArticle) (i j : Nat) :
    tripletCount (coauthorPairs arts) i j = tripletCount (coauthorPairs arts) j i := by
  unfold tripletCount coauthorPairs
  rw [countP_flatMap, countP_flatMap]
  exact congrArg (fun F => (List.map F arts).sum)
    (funext fun art => tripletCount_articlePairs_symm art.authors i j)

/-- Claim C8: the stored matrix is symmetric in content — the builder emits
both ordered directions of every coauthor pair, so for all cells the stored
weight of (i, j) equals the stored weight of (j, i). -/
theorem entry_symmetric (arts : List FatArticle) (i j : Nat) :
    entry arts i j = entry arts j i := by
  unfold entry
  rw [tripletCount_symm]

/-- Claim C9 (amended): if any two authors appearing in the input articles
with different orcids also have different ids, then the matrix has no
self-edges — every diagonal entry is 0.  Distinct orcids alone do not
suffice when two records share an id. -/
theorem no_self_edges_of_distinct_ids (arts : List FatArticle)
    (h : ∀ art ∈ arts, ∀ x ∈ art.authors, ∀ art2 ∈ arts, ∀ y ∈ art2.authors,
      x.orcid ≠ y.orcid → x.id ≠ y.id) (i : Nat) :
    entry arts i i = 0 := by
  unfold entry
  have hz : tripletCount (coauthorPairs arts) i i = 0 := by
    unfold tripletCount coauthorPairs
    rw [List.countP_eq_zero]
    intro p hp
    obtain ⟨art, hart, hp2⟩ := List.mem_flatMap.mp hp
    unfold articlePairs at hp2
    obtain ⟨x, hx, hp3⟩ := List.mem_flatMap.mp hp2
    obtain ⟨y, hy, rfl⟩ := List.mem_map.mp hp3
    have hyf := List.mem_filter.mp hy
    have hne : x.orcid ≠ y.orcid := by simpa using hyf.2
    have hid : x.id ≠ y.id := h art hart x hx art hart y hyf.1 hne
    simp only [decide_eq_true_eq]
    rintro ⟨h1, h2⟩
    exact hid (by rw [h1, h2])
  rw [hz]
  decide

/-- Witness for `no_self_edges_of_distinct_ids` on a one-article graph. -/
theorem no_self_edges_witness : entry pairInput 0 0 = 0 :=
  no_self_edges_of_distinct_ids pairInput (by decide) 0

theorem okB_bind_cons {α : Type} (x : Except String α) (y : Except String (List α)) :
    okB (x >>= fun v => y >>= fun vs => pure (v :: vs)) = (okB x && okB y) := by
  cases x <;> cases y <;> rfl

theorem okB_mapM {α β : Type} (f : α → Except String β) (l : List α) :
    okB (l.mapM f) = l.all fun x => okB (f x) := by
  induction l with
  | nil => rfl
  | cons a l ih =>
    rw [List.mapM_cons, okB_bind_cons, List.all_cons, ih]

theorem okB_article (authors : List Author) (ships : List Authorship) (art : Article) :
    okB ((authorshipsFor ships art.doi).mapM (fun s =>
        match lookupOrcid authors s.author_orcid with
        | some a => Except.ok a
        | none => Except.error s.author_orcid) >>= fun as =>
      Except.ok (⟨art.doi, as⟩ : FatArticle)) =
    (authorshipsFor ships art.doi).all fun s =>
      (lookupOrcid authors s.author_orcid).isSome := by
  have h1 : ∀ x : Except String (List Author),
      okB (x >>= fun as => Except.ok (⟨art.doi, as⟩ : FatArticle)) = okB x := by
    intro x; cases x <;> rfl
  rw [h1, okB_mapM]
  have h2 : (fun s => okB (match lookupOrcid authors s.author_orcid with
      | some a => Except.ok a
      | none => Except.error s.author_orcid)) =
      fun s : Authorship => (lookupOrcid authors s.author_orcid).isSome := by
    funext s
    cases hlk : lookupOrcid authors s.author_orcid <;> rfl
  rw [h2]

/-- Claim C2 (amended): `attach_authors` succeeds exactly when every
authorship link grouped under some listed article's doi has a matching
author record; a link with an unknown orcid whose doi matches no listed
article is silently ignored rather than reported. -/
theorem attach_ok_iff_all_matched (articles : List Article) (authors : List Author)
    (ships : List Authorship) :
    okB (attach_authors articles authors ships) =
      (articles.all fun art => (authorshipsFor ships art.doi).all fun s =>
        (lookupOrcid authors s.author_orcid).isSome) := by
  induction articles with
  | nil => rfl
  | cons art arts ih =>
    unfold attach_authors
    rw [List.mapM_cons, okB_bind_cons, List.all_cons]
    unfold attach_authors at ih
    rw [ih]
    simp only [okB_article authors ships art]

/-- Claim C2 (counterexample): an authorship link with an unknown orcid
whose doi matches no listed article is silently dropped — `attach_authors`
succeeds even though the link's orcid has no matching author record, so the
error is not raised "exactly when" such a link exists. -/
theorem unknown_orcid_link_silently_dropped :
    (∃ s ∈ [ghostLink], lookupOrcid c2Authors s.author_orcid = none) ∧
      attach_authors c2Articles c2Authors [ghostLink] =
        Except.ok [⟨"doi-listed", []⟩] :=
  ⟨by decide, rfl⟩

end ErdosPipeline
